import Mathlib

/-!
Verification of the Document Geometry Normalizer and Table Reconstruction
Engine of `service-python/app/main.py`.

The Python functions are shallowly embedded as executable Lean definitions.
Floating-point values (coordinates, tolerances, quality scores) are modelled
exactly as rationals; machine floats in the source hold small exact values for
every input the claims quantify over, so the rational model is faithful.
External OpenCV computations (contour extraction, warping, filtering) are
abstracted as parameters; every piece of control flow and arithmetic written
in the repository itself is translated directly.
-/

namespace ErpDoosan

set_option allowUnsafeReducibility true

-- The Batteries arithmetic on `Rat` is kernel-computable but marked
-- irreducible as an elaboration-performance hint; re-exposing it lets the
-- concrete evaluations in witnesses and counterexamples go through `decide`.
-- Reducibility attributes do not change definitional equality, so soundness
-- is unaffected.
attribute [local semireducible] Rat.mul Rat.add Rat.sub Rat.inv

/-- A 2-D point with rational coordinates, modelling a `float32` point of
`numpy`. -/
structure PtQ where
  x : ℚ
  y : ℚ
deriving DecidableEq, Repr

/-- First index of the minimum of four values, mirroring `np.argmin` on a
length-4 array: scan left to right, update only on strict decrease. -/
def argmin4 (v : Fin 4 → ℚ) : Fin 4 :=
  let b1 : Fin 4 := if v 1 < v 0 then 1 else 0
  let b2 : Fin 4 := if v 2 < v b1 then 2 else b1
  if v 3 < v b2 then 3 else b2

/-- First index of the maximum of four values, mirroring `np.argmax` on a
length-4 array. -/
def argmax4 (v : Fin 4 → ℚ) : Fin 4 :=
  let b1 : Fin 4 := if v 0 < v 1 then 1 else 0
  let b2 : Fin 4 := if v b1 < v 2 then 2 else b1
  if v b2 < v 3 then 3 else b2

/-- The ordered corner rectangle produced by `_order_points`: slots 0..3 of
the `rect` array are top-left, top-right, bottom-right, bottom-left. -/
structure OrderedRect where
  tl : PtQ
  tr : PtQ
  br : PtQ
  bl : PtQ
deriving DecidableEq, Repr

/-- `_order_points` (main.py:171-179).  `s = pts.sum(axis=1)` is `x + y`;
`diff = np.diff(pts, axis=1)` is `y - x` (second column minus first).
`rect[0] = pts[argmin s]`, `rect[2] = pts[argmax s]`,
`rect[1] = pts[argmin diff]`, `rect[3] = pts[argmax diff]`. -/
def _order_points (pts : Fin 4 → PtQ) : OrderedRect :=
  { tl := pts (argmin4 fun i => (pts i).x + (pts i).y)
    br := pts (argmax4 fun i => (pts i).x + (pts i).y)
    tr := pts (argmin4 fun i => (pts i).y - (pts i).x)
    bl := pts (argmax4 fun i => (pts i).y - (pts i).x) }

/-- Cross product of the two vectors `b - a` and `c - b`. -/
def cross (a b c : PtQ) : ℚ :=
  (b.x - a.x) * (c.y - b.y) - (b.y - a.y) * (c.x - b.x)

/-- The four points, in the order given, trace a non-degenerate convex
quadrilateral: all four consecutive cross products share a strict sign. -/
def ConvexQuad (p : Fin 4 → PtQ) : Prop :=
  (0 < cross (p 0) (p 1) (p 2) ∧ 0 < cross (p 1) (p 2) (p 3) ∧
   0 < cross (p 2) (p 3) (p 0) ∧ 0 < cross (p 3) (p 0) (p 1)) ∨
  (cross (p 0) (p 1) (p 2) < 0 ∧ cross (p 1) (p 2) (p 3) < 0 ∧
   cross (p 2) (p 3) (p 0) < 0 ∧ cross (p 3) (p 0) (p 1) < 0)

instance (p : Fin 4 → PtQ) : Decidable (ConvexQuad p) := by
  unfold ConvexQuad; infer_instance

lemma argmin4_le (v : Fin 4 → ℚ) : ∀ i, v (argmin4 v) ≤ v i := by
  intro i
  unfold argmin4
  dsimp only
  split <;> split <;> split <;> fin_cases i <;> simp_all <;> linarith

lemma argmax4_le (v : Fin 4 → ℚ) : ∀ i, v i ≤ v (argmax4 v) := by
  intro i
  unfold argmax4
  dsimp only
  split <;> split <;> split <;> fin_cases i <;> simp_all <;> linarith

/-- `_cluster_1d` joins `x` to the last open cluster iff `|x - last member| ≤
tol`.  `clusterLoop tol rest cur done` processes the remaining sorted values
`rest`; `cur` is the open cluster with its most recently appended member at
the head, and `done` holds the closed clusters, most recent first. -/
def clusterLoop (tol : ℚ) : List ℚ → List ℚ → List (List ℚ) → List (List ℚ)
  | [], cur, done => (cur.reverse :: done).reverse
  | x :: xs, cur, done =>
    if |x - cur.headD 0| ≤ tol then clusterLoop tol xs (x :: cur) done
    else clusterLoop tol xs [x] (cur.reverse :: done)

/-- Arithmetic mean of a list (`sum(c) / len(c)`). -/
def listMean (c : List ℚ) : ℚ := c.sum / c.length

/-- `_cluster_1d` (main.py:147-157): sort ascending, greedily cluster, and
return each cluster's arithmetic mean. -/
def _cluster_1d (values : List ℚ) (tol : ℚ) : List ℚ :=
  match values.insertionSort (· ≤ ·) with
  | [] => []
  | v :: vs => (clusterLoop tol vs [v] []).map listMean

/-- The loop of `_assign_to_nearest`: `i` is the index of the head of the
remaining centers, `best_i`/`best_d` the best index and distance so far. -/
def assignGo (value : ℚ) : List ℚ → ℕ → ℕ → ℚ → ℕ
  | [], _, best_i, _ => best_i
  | c :: cs, i, best_i, best_d =>
    if |value - c| < best_d then assignGo value cs (i + 1) i |value - c|
    else assignGo value cs (i + 1) best_i best_d

/-- `_assign_to_nearest` (main.py:160-168).  `best_d` starts at infinity, so
the first center always improves it; we start the loop after the head. -/
def _assign_to_nearest (value : ℚ) (centers : List ℚ) : ℕ :=
  match centers with
  | [] => 0
  | c :: cs => assignGo value cs 1 0 |value - c|

/-- C1 (amended): `_order_points` puts in the top-left slot a point of
minimum `x + y`, in the bottom-right slot a point of maximum `x + y`, in the
top-right slot a point of minimum `y - x` (equivalently maximum `x - y`), and
in the bottom-left slot a point of maximum `y - x` (minimum `x - y`), for
every input quadruple of points. -/
theorem order_points_corner_extrema (pts : Fin 4 → PtQ) :
    (∀ i, (_order_points pts).tl.x + (_order_points pts).tl.y ≤ (pts i).x + (pts i).y) ∧
    (∀ i, (pts i).x + (pts i).y ≤ (_order_points pts).br.x + (_order_points pts).br.y) ∧
    (∀ i, (_order_points pts).tr.y - (_order_points pts).tr.x ≤ (pts i).y - (pts i).x) ∧
    (∀ i, (pts i).y - (pts i).x ≤ (_order_points pts).bl.y - (_order_points pts).bl.x) :=
  ⟨fun i => argmin4_le (fun j => (pts j).x + (pts j).y) i,
   fun i => argmax4_le (fun j => (pts j).x + (pts j).y) i,
   fun i => argmin4_le (fun j => (pts j).y - (pts j).x) i,
   fun i => argmax4_le (fun j => (pts j).y - (pts j).x) i⟩

/-- The corners of an axis-aligned square, in contour order. -/
def sqPts : Fin 4 → PtQ
  | ⟨0, _⟩ => ⟨0, 0⟩
  | ⟨1, _⟩ => ⟨10, 0⟩
  | ⟨2, _⟩ => ⟨10, 10⟩
  | ⟨3, _⟩ => ⟨0, 10⟩

/-- C1 counterexample: on the axis-aligned square traced in contour order —
a non-degenerate convex quadrilateral — the point placed in the top-right
slot is `(10, 0)`, whose `x - y = 10` is the maximum, not the minimum, of
`x - y` over the four corners; so "top-right = the point with minimum
`(x - y)`" is false (the code minimizes `y - x` there). -/
theorem order_points_counterexample :
    ConvexQuad sqPts ∧
    ¬ (∀ i, (_order_points sqPts).tr.x - (_order_points sqPts).tr.y ≤
            (sqPts i).x - (sqPts i).y) := by
  have h0 : sqPts 0 = ⟨0, 0⟩ := rfl
  have h1 : sqPts 1 = ⟨10, 0⟩ := rfl
  have h2 : sqPts 2 = ⟨10, 10⟩ := rfl
  have h3 : sqPts 3 = ⟨0, 10⟩ := rfl
  have htr : (_order_points sqPts).tr = ⟨10, 0⟩ := by
    show sqPts (argmin4 fun i => (sqPts i).y - (sqPts i).x) = ⟨10, 0⟩
    norm_num [argmin4, h0, h1, h2, h3]
  constructor
  · unfold ConvexQuad
    left
    norm_num [cross, h0, h1, h2, h3]
  · intro hall
    have := hall 3
    rw [htr, h3] at this
    norm_num at this

/-- Insertion sort depends only on the multiset of values. -/
lemma insertionSort_eq_of_perm (l l' : List ℚ) (h : l.Perm l') :
    l.insertionSort (· ≤ ·) = l'.insertionSort (· ≤ ·) :=
  List.eq_of_perm_of_sorted
    ((List.perm_insertionSort _ l).trans (h.trans (List.perm_insertionSort _ l').symm))
    (List.sorted_insertionSort _ l) (List.sorted_insertionSort _ l')

/-- Every member of the first cluster is at most every member of the second. -/
def ClLE (c c' : List ℚ) : Prop := ∀ a ∈ c, ∀ b ∈ c', a ≤ b

lemma clusterLoop_invariant (tol : ℚ) (xs : List ℚ) :
    ∀ (cur : List ℚ) (done : List (List ℚ)),
      cur ≠ [] →
      List.Sorted (· ≤ ·) xs →
      (∀ a ∈ cur, ∀ b ∈ xs, a ≤ b) →
      (∀ c ∈ done, c ≠ []) →
      (∀ c ∈ done, ∀ a ∈ c, (∀ b ∈ cur, a ≤ b) ∧ (∀ b ∈ xs, a ≤ b)) →
      List.Pairwise (fun c c' => ClLE c' c) done →
      (∀ c ∈ clusterLoop tol xs cur done, c ≠ []) ∧
      List.Pairwise ClLE (clusterLoop tol xs cur done) := by
  induction xs with
  | nil =>
    intro cur done hcur _ _ hdne hdc hdp
    constructor
    · intro c hc
      simp only [clusterLoop, List.mem_reverse, List.mem_cons] at hc
      rcases hc with rfl | hc
      · simpa using hcur
      · exact hdne c hc
    · simp only [clusterLoop]
      rw [List.pairwise_reverse]
      rw [List.pairwise_cons]
      refine ⟨?_, hdp⟩
      intro c hc a ha b hb
      rw [List.mem_reverse] at hb
      exact (hdc c hc a ha).1 b hb
  | cons x xs ih =>
    intro cur done hcur hsorted hcx hdne hdc hdp
    have hx_xs : ∀ b ∈ xs, x ≤ b := (List.sorted_cons.mp hsorted).1
    have hxs : List.Sorted (· ≤ ·) xs := (List.sorted_cons.mp hsorted).2
    simp only [clusterLoop]
    split
    · -- x joins the open cluster
      apply ih (x :: cur) done (by simp) hxs
      · intro a ha b hb
        rcases List.mem_cons.mp ha with rfl | ha'
        · exact hx_xs b hb
        · exact hcx a ha' b (List.mem_cons_of_mem _ hb)
      · exact hdne
      · intro c hc a ha
        refine ⟨?_, ?_⟩
        · intro b hb
          rcases List.mem_cons.mp hb with rfl | hb'
          · exact (hdc c hc a ha).2 b (List.mem_cons_self _ _)
          · exact (hdc c hc a ha).1 b hb'
        · intro b hb
          exact (hdc c hc a ha).2 b (List.mem_cons_of_mem _ hb)
      · exact hdp
    · -- x opens a new cluster
      apply ih [x] (cur.reverse :: done) (by simp) hxs
      · intro a ha b hb
        obtain rfl := List.mem_singleton.mp ha
        exact hx_xs b hb
      · intro c hc
        rcases List.mem_cons.mp hc with rfl | hc'
        · simpa using hcur
        · exact hdne c hc'
      · intro c hc a ha
        rcases List.mem_cons.mp hc with rfl | hc'
        · rw [List.mem_reverse] at ha
          refine ⟨?_, ?_⟩
          · intro b hb
            obtain rfl := List.mem_singleton.mp hb
            exact hcx a ha b (List.mem_cons_self _ _)
          · intro b hb
            exact hcx a ha b (List.mem_cons_of_mem _ hb)
        · refine ⟨?_, ?_⟩
          · intro b hb
            obtain rfl := List.mem_singleton.mp hb
            exact (hdc c hc' a ha).2 b (List.mem_cons_self _ _)
          · intro b hb
            exact (hdc c hc' a ha).2 b (List.mem_cons_of_mem _ hb)
      · rw [List.pairwise_cons]
        refine ⟨?_, hdp⟩
        intro c hc a ha b hb
        rw [List.mem_reverse] at hb
        exact (hdc c hc a ha).1 b hb

lemma listMean_le_of_forall_le {c : List ℚ} {b : ℚ} (hc : c ≠ []) (h : ∀ a ∈ c, a ≤ b) :
    listMean c ≤ b := by
  have hlen : 0 < (c.length : ℚ) := by
    exact_mod_cast List.length_pos.mpr hc
  rw [listMean, div_le_iff₀ hlen]
  calc c.sum ≤ c.length • b := List.sum_le_card_nsmul c b h
    _ = b * c.length := by rw [nsmul_eq_mul]; ring

lemma le_listMean_of_forall_le {c : List ℚ} {m : ℚ} (hc : c ≠ []) (h : ∀ b ∈ c, m ≤ b) :
    m ≤ listMean c := by
  have hlen : 0 < (c.length : ℚ) := by
    exact_mod_cast List.length_pos.mpr hc
  rw [listMean, le_div_iff₀ hlen]
  calc m * c.length = c.length • m := by rw [nsmul_eq_mul]; ring
    _ ≤ c.sum := List.card_nsmul_le_sum c m h

lemma listMean_mono {c c' : List ℚ} (hc : c ≠ []) (hc' : c' ≠ []) (h : ClLE c c') :
    listMean c ≤ listMean c' :=
  le_listMean_of_forall_le hc' fun b hb =>
    listMean_le_of_forall_le hc fun a ha => h a ha b hb

/-- C6: the result of `_cluster_1d` is invariant under permutation of the
input values (sorting is internal), and the returned cluster centers are in
ascending order. -/
theorem cluster_1d_perm_invariant_sorted (l l' : List ℚ) (tol : ℚ) (h : l.Perm l') :
    _cluster_1d l tol = _cluster_1d l' tol ∧
    List.Sorted (· ≤ ·) (_cluster_1d l tol) := by
  constructor
  · unfold _cluster_1d
    rw [insertionSort_eq_of_perm l l' h]
  · unfold _cluster_1d
    rcases hs : l.insertionSort (· ≤ ·) with _ | ⟨v, vs⟩
    · exact List.sorted_nil
    · have hsorted : List.Sorted (· ≤ ·) (v :: vs) := by
        rw [← hs]; exact List.sorted_insertionSort _ l
      have hinv := clusterLoop_invariant tol vs [v] []
        (by simp) (List.sorted_cons.mp hsorted).2
        (by intro a ha b hb
            obtain rfl := List.mem_singleton.mp ha
            exact (List.sorted_cons.mp hsorted).1 b hb)
        (by simp) (by simp) (by simp)
      rw [List.Sorted, List.pairwise_map]
      exact List.Pairwise.imp_of_mem
        (fun hc hc' hcc' => listMean_mono (hinv.1 _ hc) (hinv.1 _ hc') hcc') hinv.2

/-- C6 witness: a concrete permutation pair; both the invariance and the
sortedness are obtained from the theorem. -/
theorem cluster_1d_witness :
    _cluster_1d [3, 1, 2] 1 = _cluster_1d [2, 3, 1] 1 ∧
    List.Sorted (· ≤ ·) (_cluster_1d [3, 1, 2] 1) :=
  cluster_1d_perm_invariant_sorted [3, 1, 2] [2, 3, 1] 1 (by decide)

lemma getD_mem_of_lt {l : List ℚ} {n : ℕ} (h : n < l.length) : l.getD n 0 ∈ l := by
  rw [List.getD_eq_getElem l 0 h]
  exact List.getElem_mem h

lemma assignGo_spec (value : ℚ) (cs : List ℚ) :
    ∀ (i best_i : ℕ) (best_d : ℚ),
      (assignGo value cs i best_i best_d = best_i ∧ ∀ c ∈ cs, best_d ≤ |value - c|) ∨
      ∃ k, k < cs.length ∧ assignGo value cs i best_i best_d = i + k ∧
        |value - cs.getD k 0| < best_d ∧
        (∀ c ∈ cs, |value - cs.getD k 0| ≤ |value - c|) ∧
        (∀ j < k, |value - cs.getD k 0| < |value - cs.getD j 0|) := by
  induction cs with
  | nil => intro i bi bd; left; exact ⟨rfl, by simp⟩
  | cons c cs ih =>
    intro i bi bd
    simp only [assignGo]
    split
    · -- |value - c| < bd: the head becomes the new best
      rename_i hlt0
      rcases ih (i + 1) i |value - c| with ⟨heq, hall⟩ | ⟨k, hk, heq, hlt, hmin, hfirst⟩
      · right
        refine ⟨0, by simp, by simpa using heq, by simpa using hlt0, ?_, by simp⟩
        intro d hd
        rcases List.mem_cons.mp hd with rfl | hd'
        · simp
        · simpa using hall d hd'
      · right
        refine ⟨k + 1, by simpa using Nat.succ_lt_succ hk, ?_, ?_, ?_, ?_⟩
        · rw [heq]; omega
        · simpa using lt_trans hlt hlt0
        · intro d hd
          rcases List.mem_cons.mp hd with rfl | hd'
          · simpa using le_of_lt hlt
          · simpa using hmin d hd'
        · intro j hj
          cases j with
          | zero => simpa using hlt
          | succ j' => simpa using hfirst j' (by omega)
    · -- bd ≤ |value - c|: keep the current best
      rename_i hge0
      push_neg at hge0
      rcases ih (i + 1) bi bd with ⟨heq, hall⟩ | ⟨k, hk, heq, hlt, hmin, hfirst⟩
      · left
        refine ⟨heq, ?_⟩
        intro d hd
        rcases List.mem_cons.mp hd with rfl | hd'
        · exact hge0
        · exact hall d hd'
      · right
        refine ⟨k + 1, by simpa using Nat.succ_lt_succ hk, by rw [heq]; omega,
                by simpa using hlt, ?_, ?_⟩
        · intro d hd
          rcases List.mem_cons.mp hd with rfl | hd'
          · simpa using le_trans (le_of_lt hlt) hge0
          · simpa using hmin d hd'
        · intro j hj
          cases j with
          | zero => simpa using lt_of_lt_of_le hlt hge0
          | succ j' => simpa using hfirst j' (by omega)

/-- C8: on a non-empty list of centers, `_assign_to_nearest` returns an
in-range index of a center at minimum absolute distance from the value, and
every strictly earlier center is at strictly greater distance (ties go to
the lowest index). -/
theorem assign_to_nearest_spec (value : ℚ) (centers : List ℚ) (h : centers ≠ []) :
    _assign_to_nearest value centers < centers.length ∧
    (∀ j < centers.length,
      |value - centers.getD (_assign_to_nearest value centers) 0| ≤
        |value - centers.getD j 0|) ∧
    (∀ j < _assign_to_nearest value centers,
      |value - centers.getD (_assign_to_nearest value centers) 0| <
        |value - centers.getD j 0|) := by
  match centers, h with
  | c :: cs, _ =>
    simp only [_assign_to_nearest]
    rcases assignGo_spec value cs 1 0 |value - c| with ⟨heq, hall⟩ | ⟨k, hk, heq, hlt, hmin, hfirst⟩
    · rw [heq]
      refine ⟨by simp, ?_, by omega⟩
      intro j hj
      cases j with
      | zero => simp
      | succ j' =>
        simp only [List.getD_cons_zero, List.getD_cons_succ]
        exact hall _ (getD_mem_of_lt (by simpa using hj))
    · rw [Nat.add_comm] at heq
      rw [heq]
      refine ⟨by simpa using Nat.succ_lt_succ hk, ?_, ?_⟩
      · intro j hj
        cases j with
        | zero => simpa using le_of_lt hlt
        | succ j' =>
          simp only [List.getD_cons_succ]
          exact hmin _ (getD_mem_of_lt (by simpa using hj))
      · intro j hj
        cases j with
        | zero => simpa using hlt
        | succ j' => simpa using hfirst j' (by omega)

/-- C8 witness: value 5 against centers `[1, 7, 3, 7]`; centers 7 and 3 tie
at distance 2 and the returned index is the lowest minimiser. -/
theorem assign_to_nearest_witness :
    _assign_to_nearest 5 [1, 7, 3, 7] < ([1, 7, 3, 7] : List ℚ).length ∧
    (∀ j < ([1, 7, 3, 7] : List ℚ).length,
      |(5 : ℚ) - ([1, 7, 3, 7] : List ℚ).getD (_assign_to_nearest 5 [1, 7, 3, 7]) 0| ≤
        |(5 : ℚ) - ([1, 7, 3, 7] : List ℚ).getD j 0|) ∧
    (∀ j < _assign_to_nearest 5 [1, 7, 3, 7],
      |(5 : ℚ) - ([1, 7, 3, 7] : List ℚ).getD (_assign_to_nearest 5 [1, 7, 3, 7]) 0| <
        |(5 : ℚ) - ([1, 7, 3, 7] : List ℚ).getD j 0|) :=
  assign_to_nearest_spec 5 [1, 7, 3, 7] (by decide)

/-! ## Python text primitives used by the table reconstructor -/

/-- Python's `str.isspace` character class (ASCII range). -/
def pyIsSpace (c : Char) : Bool :=
  c == ' ' || c == '\t' || c == '\n' || c == '\r' || c == '\x0b' || c == '\x0c'

/-- Python's `str.strip()` on the character list: drop whitespace from both
ends. -/
def pyStripData (l : List Char) : List Char :=
  ((l.dropWhile pyIsSpace).reverse.dropWhile pyIsSpace).reverse

/-- Python's `str.strip()`. -/
def pyStrip (s : String) : String := ⟨pyStripData s.data⟩

/-! ## Table reconstruction (`_reconstruct_table_from_boxes`, main.py:355-452) -/

/-- The bounding-box record produced by `_polygon_to_bbox` (main.py:128-144). -/
structure BBox where
  x : ℚ
  y : ℚ
  w : ℚ
  h : ℚ
  x_center : ℚ
  y_center : ℚ
  x2 : ℚ
  y2 : ℚ
deriving DecidableEq, Repr

/-- A positioned text item handed to the reconstructor; the service always
attaches a bounding box built by `_polygon_to_bbox`. -/
structure Box where
  text : Option String
  confidence : Option ℚ
  bbox : BBox
deriving DecidableEq, Repr

/-- `np.median`: sort ascending; middle element for odd length, mean of the
two middle elements for even length. -/
def pyMedian (l : List ℚ) : ℚ :=
  let s := l.insertionSort (· ≤ ·)
  if s.length = 0 then 0
  else if s.length % 2 = 1 then s.getD (s.length / 2) 0
  else (s.getD (s.length / 2 - 1) 0 + s.getD (s.length / 2) 0) / 2

def heightsOf (boxes : List Box) : List ℚ := boxes.map fun b => b.bbox.h

/-- `row_tol = max(8.0, med_h * 0.9)` (main.py:364). -/
def rowTol (boxes : List Box) : ℚ := max 8 (pyMedian (heightsOf boxes) * (9 / 10))

/-- `sorted(boxes, key=lambda b: (y_center, x_center))` (main.py:366); Python
sorts are stable lexicographic on the key. -/
def sortBoxes (boxes : List Box) : List Box :=
  boxes.insertionSort fun a b =>
    a.bbox.y_center < b.bbox.y_center ∨
    (a.bbox.y_center = b.bbox.y_center ∧ a.bbox.x_center ≤ b.bbox.x_center)

/-- `sorted(current, key=lambda x: x_center)` (main.py:382). -/
def sortRowByX (r : List Box) : List Box :=
  r.insertionSort fun a b => a.bbox.x_center ≤ b.bbox.x_center

/-- Running mean of the vertical centers of the current row. -/
def meanY (r : List Box) : ℚ := (r.map fun b => b.bbox.y_center).sum / r.length

/-- The greedy row-grouping loop (main.py:372-387): a box joins the current
row iff its vertical center is within `tol` of the row's running mean
vertical center, which is then recomputed; otherwise the current row is
closed (sorted by horizontal center) and a new one opened. -/
def groupGo (tol : ℚ) : List Box → List Box → ℚ → List (List Box)
  | [], current, _ => [sortRowByX current]
  | b :: bs, current, current_y =>
    if |b.bbox.y_center - current_y| ≤ tol then
      groupGo tol bs (current ++ [b]) (meanY (current ++ [b]))
    else
      sortRowByX current :: groupGo tol bs [b] b.bbox.y_center

def groupRows (tol : ℚ) : List Box → List (List Box)
  | [] => []
  | b :: bs => groupGo tol bs [b] b.bbox.y_center

/-- `rows = [r for r in rows if len(r) >= 2]` after grouping (main.py:389). -/
def survivingRows (boxes : List Box) : List (List Box) :=
  (groupRows (rowTol boxes) (sortBoxes boxes)).filter fun r => decide (2 ≤ r.length)

/-- `max(len(r) for r in rows)` (main.py:393). -/
def maxCols (rows : List (List Box)) : ℕ := (rows.map List.length).foldr max 0

/-- `max(2, int(0.6 * max_cols))` (main.py:394); `int` truncates the
non-negative product, i.e. takes the floor. -/
def candThreshold (rows : List (List Box)) : ℕ :=
  max 2 (Int.toNat ⌊(6 / 10 : ℚ) * maxCols rows⌋)

/-- Indices (into `rows`) of the candidate header rows. -/
def candIdxsAux (thr : ℕ) : ℕ → List (List Box) → List ℕ
  | _, [] => []
  | i, r :: rs =>
    if thr ≤ r.length then i :: candIdxsAux thr (i + 1) rs
    else candIdxsAux thr (i + 1) rs

def rowMedianY (r : List Box) : ℚ := pyMedian (r.map fun b => b.bbox.y_center)

/-- Python `min(..., key=...)`: the first element attaining the minimal key. -/
def minByKeyFirst (key : ℕ → ℚ) : List ℕ → Option ℕ
  | [] => none
  | x :: xs => some (xs.foldl (fun best j => if key j < key best then j else best) x)

/-- Index into `rows` of the header row chosen at main.py:393-397: among
rows with enough items (all rows if none qualifies), the first with the
smallest median vertical center. -/
def headerIdx (rows : List (List Box)) : ℕ :=
  let cand := candIdxsAux (candThreshold rows) 0 rows
  let cand' := if cand = [] then List.range rows.length else cand
  (minByKeyFirst (fun i => rowMedianY (rows.getD i [])) cand').getD 0

/-- Horizontal centers of all items of rows with at least two items
(main.py:399-404); the guard is kept although `rows` is already filtered. -/
def xCentersOf (rows : List (List Box)) : List ℚ :=
  rows.foldr
    (fun r acc =>
      if r.length < 2 then acc else (r.map fun b => b.bbox.x_center) ++ acc) []

/-- `col_tol = max(12.0, med_h * 1.2)` (main.py:408). -/
def colTol (boxes : List Box) : ℚ := max 12 (pyMedian (heightsOf boxes) * (12 / 10))

/-- `col_centers = _cluster_1d(x_centers, tol=col_tol)` (main.py:409). -/
def colCenters (boxes : List Box) : List ℚ :=
  _cluster_1d (xCentersOf (survivingRows boxes)) (colTol boxes)

/-- Keys of an association list modelling a Python `dict` with `str` keys. -/
def dictKeys (d : List (String × String)) : List String := d.map Prod.fst

/-- `{h: "" for h in headers}`: one entry per distinct header label, in
first-occurrence order (re-assignment of a present key keeps its slot). -/
def dictInitFrom : List (String × String) → List String → List (String × String)
  | d, [] => d
  | d, h :: hs => dictInitFrom (if h ∈ dictKeys d then d else d ++ [(h, "")]) hs

def dictInit (headers : List String) : List (String × String) := dictInitFrom [] headers

def dictGet (d : List (String × String)) (k : String) : String :=
  ((d.find? fun e => e.1 == k).map Prod.snd).getD ""

/-- `d[k] = v` for a key already present: update in place. -/
def dictUpdate (d : List (String × String)) (k v : String) : List (String × String) :=
  d.map fun e => if e.1 = k then (k, v) else e

/-- One step of the header-label accumulation loop (main.py:414-422). -/
def setHeaderCell (hbc : List String) (idx : ℕ) (txt : String) : List String :=
  hbc.set idx
    (if hbc.getD idx "" ≠ "" then pyStrip (hbc.getD idx "" ++ " " ++ txt) else txt)

def headersByCol (header_row : List Box) (ccs : List ℚ) : List String :=
  header_row.foldl
    (fun hbc b =>
      let txt := pyStrip (b.text.getD "")
      if txt = "" then hbc
      else setHeaderCell hbc (_assign_to_nearest b.bbox.x_center ccs) txt)
    (List.replicate ccs.length "")

/-- `[h.strip() if h.strip() else f"col_N" for i, h in enumerate(...)]`
(main.py:424) with `N = i + 1`. -/
def withColNamesAux : ℕ → List String → List String
  | _, [] => []
  | i, h :: t =>
    (if pyStrip h ≠ "" then pyStrip h else "col_" ++ toString (i + 1)) ::
      withColNamesAux (i + 1) t

def mkHeaders (header_row : List Box) (ccs : List ℚ) : List String :=
  withColNamesAux 0 (headersByCol header_row ccs)

/-- One step of the body-row accumulation loop (main.py:431-440). -/
def buildRowStep (headers : List String) (ccs : List ℚ)
    (d : List (String × String)) (b : Box) : List (String × String) :=
  let key := headers.getD (_assign_to_nearest b.bbox.x_center ccs) ""
  let txt := pyStrip (b.text.getD "")
  if txt = "" then d
  else dictUpdate d key
    (if dictGet d key ≠ "" then pyStrip (dictGet d key ++ " " ++ txt) else txt)

def buildRow (headers : List String) (ccs : List ℚ) (r : List Box) :
    List (String × String) :=
  r.foldl (buildRowStep headers ccs) (dictInit headers)

/-- `any(v.strip() for v in row_obj.values())` (main.py:441). -/
def anyValNonEmpty (d : List (String × String)) : Bool :=
  d.any fun e => pyStrip e.2 != ""

/-- The body-row loop (main.py:426-442): skip the header row (identified by
its index, modelling Python's identity test `r is header_row`), keep a built
row only if some value is non-empty. -/
def kvRowsAux (headers : List String) (ccs : List ℚ) (hIdx : ℕ) :
    ℕ → List (List Box) → List (List (String × String))
  | _, [] => []
  | i, r :: rs =>
    if i = hIdx then kvRowsAux headers ccs hIdx (i + 1) rs
    else
      if anyValNonEmpty (buildRow headers ccs r) then
        buildRow headers ccs r :: kvRowsAux headers ccs hIdx (i + 1) rs
      else kvRowsAux headers ccs hIdx (i + 1) rs

/-- The `{headers, rows, row_count, column_count}` record. -/
structure Table where
  headers : List String
  rows : List (List (String × String))
  row_count : ℕ
  column_count : ℕ
deriving DecidableEq, Repr

def tableHeaders (boxes : List Box) : List String :=
  mkHeaders ((survivingRows boxes).getD (headerIdx (survivingRows boxes)) [])
    (colCenters boxes)

def kvRows (boxes : List Box) : List (List (String × String)) :=
  kvRowsAux (tableHeaders boxes) (colCenters boxes)
    (headerIdx (survivingRows boxes)) 0 (survivingRows boxes)

/-- `_reconstruct_table_from_boxes` (main.py:355-452). -/
def _reconstruct_table_from_boxes (boxes : List Box) : Option Table :=
  if boxes.length < 6 then none
  else if heightsOf boxes = [] then none
  else if (survivingRows boxes).length < 2 then none
  else if xCentersOf (survivingRows boxes) = [] then none
  else if (colCenters boxes).length < 2 then none
  else if kvRows boxes = [] then none
  else some ⟨tableHeaders boxes, kvRows boxes, (kvRows boxes).length,
    (tableHeaders boxes).length⟩

/-- C7: the reconstructor returns no table whenever there are fewer than 6
items, or fewer than 2 rows with at least 2 items survive grouping, or fewer
than 2 column-center clusters result. -/
theorem reconstruct_degenerate (boxes : List Box)
    (h : boxes.length < 6 ∨ (survivingRows boxes).length < 2 ∨
         (colCenters boxes).length < 2) :
    _reconstruct_table_from_boxes boxes = none := by
  unfold _reconstruct_table_from_boxes
  rcases h with h | h | h <;> split_ifs <;> first | rfl | omega

/-- C7 witness: the empty item list trips the first degeneracy guard. -/
theorem reconstruct_degenerate_witness :
    ([] : List Box).length < 6 ∧ _reconstruct_table_from_boxes [] = none :=
  ⟨by decide, reconstruct_degenerate [] (Or.inl (by decide))⟩

lemma dictUpdate_keys (d : List (String × String)) (k v : String) :
    dictKeys (dictUpdate d k v) = dictKeys d := by
  simp only [dictUpdate, dictKeys, List.map_map]
  apply List.map_congr_left
  intro e _
  by_cases he : e.1 = k
  · simp [he]
  · simp [he]

lemma buildRowStep_keys (headers : List String) (ccs : List ℚ)
    (d : List (String × String)) (b : Box) :
    dictKeys (buildRowStep headers ccs d b) = dictKeys d := by
  unfold buildRowStep
  dsimp only
  split
  · rfl
  · exact dictUpdate_keys _ _ _

lemma buildRow_keys_from (headers : List String) (ccs : List ℚ) (r : List Box) :
    ∀ d, dictKeys (r.foldl (buildRowStep headers ccs) d) = dictKeys d := by
  induction r with
  | nil => intro d; rfl
  | cons b bs ih =>
    intro d
    rw [List.foldl_cons, ih, buildRowStep_keys]

lemma buildRow_keys (headers : List String) (ccs : List ℚ) (r : List Box) :
    dictKeys (buildRow headers ccs r) = dictKeys (dictInit headers) :=
  buildRow_keys_from headers ccs r (dictInit headers)

lemma dictInitFrom_spec (headers : List String) :
    ∀ d : List (String × String), (dictKeys d).Nodup →
      (dictKeys (dictInitFrom d headers)).Nodup ∧
      ∀ k, k ∈ dictKeys (dictInitFrom d headers) ↔ k ∈ dictKeys d ∨ k ∈ headers := by
  induction headers with
  | nil =>
    intro d hd
    exact ⟨hd, by simp [dictInitFrom]⟩
  | cons h hs ih =>
    intro d hd
    simp only [dictInitFrom]
    by_cases hmem : h ∈ dictKeys d
    · rw [if_pos hmem]
      obtain ⟨h1, h2⟩ := ih d hd
      refine ⟨h1, fun k => ?_⟩
      rw [h2, List.mem_cons]
      constructor
      · rintro (hk | hk)
        · exact Or.inl hk
        · exact Or.inr (Or.inr hk)
      · rintro (hk | rfl | hk)
        · exact Or.inl hk
        · exact Or.inl hmem
        · exact Or.inr hk
    · rw [if_neg hmem]
      have hkeys : dictKeys (d ++ [(h, "")]) = dictKeys d ++ [h] := by
        simp [dictKeys]
      have hd' : (dictKeys (d ++ [(h, "")])).Nodup := by
        rw [hkeys]
        rw [List.nodup_append]
        exact ⟨hd, List.nodup_singleton h,
          fun a ha hah => hmem ((List.mem_singleton.mp hah) ▸ ha)⟩
      obtain ⟨h1, h2⟩ := ih (d ++ [(h, "")]) hd'
      refine ⟨h1, fun k => ?_⟩
      rw [h2, hkeys, List.mem_append, List.mem_singleton, List.mem_cons]
      constructor
      · rintro ((hk | rfl) | hk)
        · exact Or.inl hk
        · exact Or.inr (Or.inl rfl)
        · exact Or.inr (Or.inr hk)
      · rintro (hk | rfl | hk)
        · exact Or.inl (Or.inl hk)
        · exact Or.inl (Or.inr rfl)
        · exact Or.inr hk

lemma dictInit_keys_spec (headers : List String) :
    (dictKeys (dictInit headers)).Nodup ∧
    ∀ k, k ∈ dictKeys (dictInit headers) ↔ k ∈ headers := by
  obtain ⟨h1, h2⟩ := dictInitFrom_spec headers [] (by simp [dictKeys])
  refine ⟨h1, fun k => ?_⟩
  rw [dictInit, h2]
  simp [dictKeys]

lemma kvRowsAux_mem {headers : List String} {ccs : List ℚ} {hIdx : ℕ} :
    ∀ {i : ℕ} {rows : List (List Box)} {r : List (String × String)},
      r ∈ kvRowsAux headers ccs hIdx i rows →
      ∃ row, r = buildRow headers ccs row := by
  intro i rows
  induction rows generalizing i with
  | nil => intro r hr; simp [kvRowsAux] at hr
  | cons row0 rws ih =>
    intro r hr
    simp only [kvRowsAux] at hr
    split at hr
    · exact ih hr
    · split at hr
      · rcases List.mem_cons.mp hr with rfl | hr'
        · exact ⟨row0, rfl⟩
        · exact ih hr'
      · exact ih hr

lemma setHeaderCell_length (hbc : List String) (idx : ℕ) (txt : String) :
    (setHeaderCell hbc idx txt).length = hbc.length := by
  simp [setHeaderCell]

lemma headersByCol_length (hr : List Box) (ccs : List ℚ) :
    (headersByCol hr ccs).length = ccs.length := by
  unfold headersByCol
  have : ∀ (l : List Box) (hbc : List String),
      (l.foldl
        (fun hbc b =>
          let txt := pyStrip (b.text.getD "")
          if txt = "" then hbc
          else setHeaderCell hbc (_assign_to_nearest b.bbox.x_center ccs) txt)
        hbc).length = hbc.length := by
    intro l
    induction l with
    | nil => intro hbc; rfl
    | cons b bs ih =>
      intro hbc
      rw [List.foldl_cons, ih]
      dsimp only
      split
      · rfl
      · exact setHeaderCell_length _ _ _
  rw [this, List.length_replicate]

lemma withColNamesAux_length (i : ℕ) (l : List String) :
    (withColNamesAux i l).length = l.length := by
  induction l generalizing i with
  | nil => rfl
  | cons h t ih => simp [withColNamesAux, ih]

lemma mkHeaders_length (hr : List Box) (ccs : List ℚ) :
    (mkHeaders hr ccs).length = ccs.length := by
  rw [mkHeaders, withColNamesAux_length, headersByCol_length]

/-- C2: whenever the reconstructor emits a table, `row_count ≥ 1`,
`column_count ≥ 2`, the counts match the emitted lists, and every row
mapping has exactly one entry per header label: its key list is duplicate
free and contains exactly the header labels. -/
theorem reconstruct_table_invariants (boxes : List Box) (t : Table)
    (h : _reconstruct_table_from_boxes boxes = some t) :
    1 ≤ t.row_count ∧ 2 ≤ t.column_count ∧
    t.row_count = t.rows.length ∧ t.column_count = t.headers.length ∧
    ∀ r ∈ t.rows, (dictKeys r).Nodup ∧ ∀ k, k ∈ dictKeys r ↔ k ∈ t.headers := by
  unfold _reconstruct_table_from_boxes at h
  split_ifs at h with h1 h2 h3 h4 h5 h6
  obtain rfl := (Option.some.inj h).symm
  have hcols : (tableHeaders boxes).length = (colCenters boxes).length :=
    mkHeaders_length _ _
  refine ⟨?_, ?_, rfl, rfl, ?_⟩
  · show 1 ≤ (kvRows boxes).length
    have := List.length_pos.mpr h6
    omega
  · show 2 ≤ (tableHeaders boxes).length
    rw [hcols]
    omega
  · intro r hr
    obtain ⟨row, rfl⟩ := kvRowsAux_mem hr
    rw [buildRow_keys]
    obtain ⟨hnd, hmem⟩ := dictInit_keys_spec (tableHeaders boxes)
    exact ⟨hnd, hmem⟩

/-- A witness item with the given text and center (auxiliary fields fixed). -/
def mkBoxW (t : String) (xc yc : ℚ) : Box :=
  ⟨some t, none, ⟨0, 0, 10, 10, xc, yc, 0, 0⟩⟩

/-- Six items forming a 2-row × 3-column grid. -/
def boxesW : List Box :=
  [mkBoxW "A" 0 0, mkBoxW "B" 100 0, mkBoxW "C" 200 0,
   mkBoxW "1" 0 100, mkBoxW "2" 100 100, mkBoxW "3" 200 100]

/-- The table the reconstructor emits on `boxesW`. -/
def tableW : Table :=
  ⟨["A", "B", "C"], [[("A", "1"), ("B", "2"), ("C", "3")]], 1, 3⟩

/-- C2 witness: on the concrete 2×3 grid the reconstructor emits `tableW`,
and the invariants follow from the theorem. -/
theorem reconstruct_table_invariants_witness :
    1 ≤ tableW.row_count ∧ 2 ≤ tableW.column_count ∧
    tableW.row_count = tableW.rows.length ∧
    tableW.column_count = tableW.headers.length ∧
    ∀ r ∈ tableW.rows, (dictKeys r).Nodup ∧ ∀ k, k ∈ dictKeys r ↔ k ∈ tableW.headers :=
  reconstruct_table_invariants boxesW tableW (by decide)

/-! ## Table region detection (`_detect_table_regions`, main.py:279-352).
The pixel work (Otsu threshold, morphology, contour extraction, size
filtering) is external OpenCV computation; the repository's own logic is the
sort and merge pass over the filtered candidate boxes (main.py:323-352),
which is modelled here over an arbitrary candidate list. -/

/-- An integer rectangle `{x, y, w, h}` as produced by `cv2.boundingRect`. -/
structure Region where
  x : ℤ
  y : ℤ
  w : ℤ
  h : ℤ
deriving DecidableEq, Repr

/-- The sort key `(r["y"], r["x"])` of main.py:323. -/
def regionLE (a b : Region) : Prop :=
  a.y < b.y ∨ (a.y = b.y ∧ a.x ≤ b.x)

instance : DecidableRel regionLE := fun a b => by
  unfold regionLE; infer_instance

instance : IsTotal Region regionLE :=
  ⟨by intro a b; unfold regionLE; omega⟩

instance : IsTrans Region regionLE :=
  ⟨by intro a b c; unfold regionLE; omega⟩

def sortRegions (regions : List Region) : List Region :=
  regions.insertionSort regionLE

/-- Non-empty rectangle intersection (main.py:335-340): `ix1 > ix0 ∧ iy1 > iy0`. -/
def regionsOverlap (r m : Region) : Prop :=
  min (r.x + r.w) (m.x + m.w) > max r.x m.x ∧
  min (r.y + r.h) (m.y + m.h) > max r.y m.y

instance (r m : Region) : Decidable (regionsOverlap r m) := by
  unfold regionsOverlap; infer_instance

/-- Union bounding rectangle (main.py:341-345). -/
def unionRegion (r m : Region) : Region :=
  ⟨min r.x m.x, min r.y m.y,
   max (r.x + r.w) (m.x + m.w) - min r.x m.x,
   max (r.y + r.h) (m.y + m.h) - min r.y m.y⟩

/-- The inner loop of the merge pass: `r` merges into the first region of
`merged` whose rectangle intersects it, which grows to the union bounding
rectangle; `none` when no region intersects. -/
def mergeInto (r : Region) : List Region → Option (List Region)
  | [] => none
  | m :: ms =>
    if regionsOverlap r m then some (unionRegion r m :: ms)
    else (mergeInto r ms).map (m :: ·)

/-- The outer loop of the merge pass (main.py:325-351). -/
def mergePass : List Region → List Region → List Region
  | merged, [] => merged
  | merged, r :: rs =>
    match mergeInto r merged with
    | some merged' => mergePass merged' rs
    | none => mergePass (merged ++ [r]) rs

/-- The sort-and-merge tail of `_detect_table_regions` over the filtered
candidate boxes. -/
def mergeRegions (regions : List Region) : List Region :=
  mergePass [] (sortRegions regions)

lemma regionsOverlap_comm (r m : Region) : regionsOverlap r m ↔ regionsOverlap m r := by
  unfold regionsOverlap
  omega

/-- The candidate boxes of the C3 counterexample; each satisfies the size
filters of main.py:313-319 on a 1000×1000 image (area ≥ 10000, width ≥ 200,
height ≥ 80). -/
def regionsC3 : List Region :=
  [⟨400, 0, 240, 240⟩, ⟨700, 0, 240, 500⟩, ⟨0, 300, 740, 240⟩]

/-- C3 counterexample: the third box bridges only the second merged region,
which grows over the first; the merge output contains two overlapping
regions and is no longer ordered by `(y, x)`. -/
theorem detect_regions_counterexample :
    mergeRegions regionsC3 = [⟨400, 0, 240, 240⟩, ⟨0, 0, 940, 540⟩] ∧
    ¬ List.Pairwise (fun a b => ¬ regionsOverlap a b) (mergeRegions regionsC3) ∧
    ¬ List.Pairwise regionLE (mergeRegions regionsC3) := by
  refine ⟨by decide, ?_, ?_⟩
  · intro hp
    rw [show mergeRegions regionsC3 = [⟨400, 0, 240, 240⟩, ⟨0, 0, 940, 540⟩] from by decide]
      at hp
    exact absurd hp (by decide)
  · intro hp
    rw [show mergeRegions regionsC3 = [⟨400, 0, 240, 240⟩, ⟨0, 0, 940, 540⟩] from by decide]
      at hp
    exact absurd hp (by decide)

lemma mergeInto_eq_none {r : Region} :
    ∀ {merged : List Region}, (∀ m ∈ merged, ¬ regionsOverlap r m) →
      mergeInto r merged = none := by
  intro merged
  induction merged with
  | nil => intro _; rfl
  | cons m ms ih =>
    intro h
    simp only [mergeInto]
    rw [if_neg (h m (List.mem_cons_self _ _))]
    rw [ih fun m' hm' => h m' (List.mem_cons_of_mem _ hm')]
    rfl

lemma mergePass_no_overlap (rest : List Region) :
    ∀ merged : List Region,
      (∀ r ∈ rest, ∀ m ∈ merged, ¬ regionsOverlap r m) →
      List.Pairwise (fun a b => ¬ regionsOverlap a b) rest →
      mergePass merged rest = merged ++ rest := by
  induction rest with
  | nil => intro merged _ _; simp [mergePass]
  | cons r rs ih =>
    intro merged hrm hp
    simp only [mergePass]
    rw [mergeInto_eq_none fun m hm => hrm r (List.mem_cons_self _ _) m hm]
    rw [ih (merged ++ [r]) ?_ (List.pairwise_cons.mp hp).2]
    · simp
    · intro r' hr' m hm
      rcases List.mem_append.mp hm with hm' | hm'
      · exact hrm r' (List.mem_cons_of_mem _ hr') m hm'
      · obtain rfl := List.mem_singleton.mp hm'
        intro hov
        exact (List.pairwise_cons.mp hp).1 r' hr'
          ((regionsOverlap_comm r' m).mp hov)

/-- C3 (amended): whenever the filtered candidate boxes are pairwise
non-overlapping, the merge pass returns exactly the boxes sorted by
`(y, x)`, pairwise non-overlapping; in general a later box can merge two
chains transitively and the output may contain overlapping, out-of-order
regions (see the counterexample). -/
theorem detect_regions_disjoint_sorted (regions : List Region)
    (h : List.Pairwise (fun a b => ¬ regionsOverlap a b) regions) :
    mergeRegions regions = sortRegions regions ∧
    List.Sorted regionLE (mergeRegions regions) ∧
    List.Pairwise (fun a b => ¬ regionsOverlap a b) (mergeRegions regions) := by
  have hp' : List.Pairwise (fun a b => ¬ regionsOverlap a b) (sortRegions regions) :=
    h.perm (List.perm_insertionSort _ _).symm
      fun hab hov => hab ((regionsOverlap_comm _ _).mp hov)
  have heq : mergeRegions regions = sortRegions regions := by
    unfold mergeRegions
    rw [mergePass_no_overlap (sortRegions regions) [] (by simp) hp']
    simp
  refine ⟨heq, ?_, ?_⟩
  · rw [heq]
    exact List.sorted_insertionSort _ _
  · rw [heq]
    exact hp'

/-- C3 witness: two vertically separated candidate boxes stay two regions,
ordered and non-overlapping. -/
theorem detect_regions_witness :
    mergeRegions [⟨0, 0, 100, 50⟩, ⟨0, 200, 100, 50⟩] =
      sortRegions [⟨0, 0, 100, 50⟩, ⟨0, 200, 100, 50⟩] ∧
    List.Sorted regionLE (mergeRegions [⟨0, 0, 100, 50⟩, ⟨0, 200, 100, 50⟩]) ∧
    List.Pairwise (fun a b => ¬ regionsOverlap a b)
      (mergeRegions [⟨0, 0, 100, 50⟩, ⟨0, 200, 100, 50⟩]) :=
  detect_regions_disjoint_sorted [⟨0, 0, 100, 50⟩, ⟨0, 200, 100, 50⟩] (by decide)

/-! ## Region-scoped extraction (`_extract_tables_from_paddle_page`,
main.py:455-504).  Region detection from pixels is external (see above); the
function is modelled over its item list and the detected-region list, which
is exactly what claim C4 quantifies over. -/

/-- An OCR line as produced by `_run_paddle` (text, confidence, polygon). -/
structure PageLine where
  text : Option String
  confidence : Option ℚ
  polygon : Option (List PtQ)
deriving DecidableEq, Repr

/-- `_polygon_to_bbox` (main.py:128-144); callers skip empty polygons, for
which the mins and maxes here degenerate to 0. -/
def _polygon_to_bbox (polygon : List PtQ) : BBox :=
  let xs := polygon.map fun p => p.x
  let ys := polygon.map fun p => p.y
  let x0 := xs.foldl min (xs.headD 0)
  let x1 := xs.foldl max (xs.headD 0)
  let y0 := ys.foldl min (ys.headD 0)
  let y1 := ys.foldl max (ys.headD 0)
  ⟨x0, y0, max 0 (x1 - x0), max 0 (y1 - y0), (x0 + x1) / 2, (y0 + y1) / 2, x1, y1⟩

/-- Center-point containment in a region (main.py:484-488). -/
def boxInRegion (r : Region) (b : Box) : Prop :=
  (r.x : ℚ) ≤ b.bbox.x_center ∧ b.bbox.x_center ≤ ((r.x + r.w : ℤ) : ℚ) ∧
  (r.y : ℚ) ≤ b.bbox.y_center ∧ b.bbox.y_center ≤ ((r.y + r.h : ℤ) : ℚ)

instance (r : Region) (b : Box) : Decidable (boxInRegion r b) := by
  unfold boxInRegion; infer_instance

/-- Lines 460-472: build positioned boxes, skipping lines without a
(non-empty) polygon. -/
def boxesOfLines (lines : List PageLine) : List Box :=
  lines.filterMap fun l =>
    match l.polygon with
    | none => none
    | some poly => if poly = [] then none
        else some ⟨l.text, l.confidence, _polygon_to_bbox poly⟩

/-- A reconstructed table with its `table_index` and attached region. -/
structure NumberedTable where
  table : Table
  table_index : ℕ
  bbox : Option Region
deriving DecidableEq, Repr

/-- The per-region loop (main.py:481-494): `enumerate(regions, start=1)`
keeps a region only when reconstruction over the contained items succeeds,
and stamps the table with the region's 1-based position. -/
def regionTablesAux (boxes : List Box) : ℕ → List Region → List NumberedTable
  | _, [] => []
  | i, r :: rs =>
    match _reconstruct_table_from_boxes (boxes.filter fun b => decide (boxInRegion r b)) with
    | none => regionTablesAux boxes (i + 1) rs
    | some t => ⟨t, i + 1, some r⟩ :: regionTablesAux boxes (i + 1) rs

def regionTables (boxes : List Box) (regions : List Region) : List NumberedTable :=
  regionTablesAux boxes 0 regions

/-- The global fallback (main.py:499-504). -/
def globalFallback (boxes : List Box) : List NumberedTable :=
  match _reconstruct_table_from_boxes boxes with
  | none => []
  | some t => [⟨t, 1, none⟩]

def extractCore (boxes : List Box) (regions : List Region) : List NumberedTable :=
  if regionTables boxes regions ≠ [] then regionTables boxes regions
  else globalFallback boxes

/-- `_extract_tables_from_paddle_page` (main.py:455-504) as a function of
its item list and detected-region list. -/
def _extract_tables_from_paddle_page (lines : List PageLine) (regions : List Region) :
    List NumberedTable :=
  if lines = [] then []
  else if boxesOfLines lines = [] then []
  else extractCore (boxesOfLines lines) regions

/-- A line whose polygon is a 10×10 box centered at the given point. -/
def mkLineW (t : String) (xc yc : ℚ) : PageLine :=
  ⟨some t, none, some [⟨xc - 5, yc - 5⟩, ⟨xc + 5, yc + 5⟩]⟩

/-- Six lines forming a 2-row × 3-column grid. -/
def linesC4 : List PageLine :=
  [mkLineW "A" 0 0, mkLineW "B" 100 0, mkLineW "C" 200 0,
   mkLineW "1" 0 100, mkLineW "2" 100 100, mkLineW "3" 200 100]

/-- Two detected regions: the first contains no item, the second contains
the whole grid. -/
def regionsC4 : List Region := [⟨1000, 1000, 10, 10⟩, ⟨-10, -10, 300, 300⟩]

/-- C4 counterexample: the first region yields no table and its index is
skipped, so the single surviving table is numbered 2, not 1 — the survivors
are not numbered 1, 2, 3, … as the claim states. -/
theorem extract_tables_counterexample :
    _extract_tables_from_paddle_page linesC4 regionsC4 =
      [⟨⟨["A", "B", "C"], [[("A", "1"), ("B", "2"), ("C", "3")]], 1, 3⟩, 2,
        some ⟨-10, -10, 300, 300⟩⟩] ∧
    (_extract_tables_from_paddle_page linesC4 regionsC4).map
      (fun t => t.table_index) ≠ [1] := by
  constructor
  · decide
  · intro h
    rw [show _extract_tables_from_paddle_page linesC4 regionsC4 =
      [⟨⟨["A", "B", "C"], [[("A", "1"), ("B", "2"), ("C", "3")]], 1, 3⟩, 2,
        some ⟨-10, -10, 300, 300⟩⟩] from by decide] at h
    exact absurd h (by decide)

lemma regionTablesAux_mem (boxes : List Box) :
    ∀ (i : ℕ) (rs : List Region) (t : NumberedTable),
      t ∈ regionTablesAux boxes i rs →
      ∃ k, k < rs.length ∧ t.table_index = i + k + 1 ∧
        t.bbox = some (rs.getD k ⟨0, 0, 0, 0⟩) ∧
        _reconstruct_table_from_boxes
          (boxes.filter fun b => decide (boxInRegion (rs.getD k ⟨0, 0, 0, 0⟩) b)) =
          some t.table := by
  intro i rs
  induction rs generalizing i with
  | nil => intro t ht; simp [regionTablesAux] at ht
  | cons r rs ih =>
    intro t ht
    simp only [regionTablesAux] at ht
    split at ht
    · obtain ⟨k, hk, hidx, hbb, hrec⟩ := ih (i + 1) t ht
      exact ⟨k + 1, by simpa using Nat.succ_lt_succ hk, by omega, by simpa using hbb,
        by simpa using hrec⟩
    · rename_i t0 hrec0
      rcases List.mem_cons.mp ht with rfl | ht'
      · exact ⟨0, by simp, by simp, by simp, by simpa using hrec0⟩
      · obtain ⟨k, hk, hidx, hbb, hrec⟩ := ih (i + 1) t ht'
        exact ⟨k + 1, by simpa using Nat.succ_lt_succ hk, by omega, by simpa using hbb,
          by simpa using hrec⟩

lemma regionTablesAux_pairwise (boxes : List Box) :
    ∀ (i : ℕ) (rs : List Region),
      List.Pairwise (· < ·) ((regionTablesAux boxes i rs).map fun t => t.table_index) := by
  intro i rs
  induction rs generalizing i with
  | nil => simp [regionTablesAux]
  | cons r rs ih =>
    simp only [regionTablesAux]
    split
    · exact ih (i + 1)
    · rw [List.map_cons, List.pairwise_cons]
      refine ⟨?_, ih (i + 1)⟩
      intro n hn
      rw [List.mem_map] at hn
      obtain ⟨t, ht, rfl⟩ := hn
      obtain ⟨k, _, hidx, _, _⟩ := regionTablesAux_mem boxes (i + 1) rs t ht
      show i + 1 < t.table_index
      omega

lemma regionTablesAux_eq_nil (boxes : List Box) :
    ∀ (i : ℕ) (rs : List Region),
      (∀ r ∈ rs,
        _reconstruct_table_from_boxes (boxes.filter fun b => decide (boxInRegion r b)) = none) →
      regionTablesAux boxes i rs = [] := by
  intro i rs
  induction rs generalizing i with
  | nil => intro _; rfl
  | cons r rs ih =>
    intro h
    simp only [regionTablesAux]
    rw [h r (List.mem_cons_self _ _)]
    exact ih (i + 1) fun r' hr' => h r' (List.mem_cons_of_mem _ hr')

/-- C4 (amended): every surviving table corresponds to a region that yields
a valid reconstruction over the items it contains, carries that region's
bounding box and its 1-based region position as `table_index` (positions of
failed regions are skipped, so the indices are strictly increasing but may
have gaps); when no region yields a table the result is the global fallback,
whose only possible element is the reconstruction over all items, numbered 1
with no bounding box. -/
theorem extract_tables_spec (boxes : List Box) (regions : List Region) :
    (∀ t ∈ regionTables boxes regions,
      ∃ i, i < regions.length ∧ t.table_index = i + 1 ∧
        t.bbox = some (regions.getD i ⟨0, 0, 0, 0⟩) ∧
        _reconstruct_table_from_boxes
          (boxes.filter fun b => decide (boxInRegion (regions.getD i ⟨0, 0, 0, 0⟩) b)) =
          some t.table) ∧
    List.Pairwise (· < ·) ((regionTables boxes regions).map fun t => t.table_index) ∧
    ((∀ r ∈ regions,
        _reconstruct_table_from_boxes (boxes.filter fun b => decide (boxInRegion r b)) = none) →
      extractCore boxes regions = globalFallback boxes) ∧
    (regionTables boxes regions ≠ [] →
      extractCore boxes regions = regionTables boxes regions) ∧
    (∀ t ∈ globalFallback boxes,
      t.table_index = 1 ∧ t.bbox = none ∧
      _reconstruct_table_from_boxes boxes = some t.table) := by
  refine ⟨?_, regionTablesAux_pairwise boxes 0 regions, ?_, ?_, ?_⟩
  · intro t ht
    obtain ⟨k, hk, hidx, hbb, hrec⟩ := regionTablesAux_mem boxes 0 regions t ht
    exact ⟨k, hk, by omega, hbb, hrec⟩
  · intro h
    unfold extractCore
    rw [if_neg]
    intro hne
    exact hne (regionTablesAux_eq_nil boxes 0 regions h)
  · intro h
    unfold extractCore
    rw [if_pos h]
  · intro t ht
    unfold globalFallback at ht
    split at ht
    · simp at ht
    · rename_i t0 hrec0
      obtain rfl := List.mem_singleton.mp ht
      exact ⟨rfl, rfl, hrec0⟩

/-- C4 witness: with one region containing the whole grid, the region pass
succeeds and the extraction returns it rather than the global fallback. -/
theorem extract_tables_spec_witness :
    extractCore (boxesOfLines linesC4) [⟨-10, -10, 300, 300⟩] =
      regionTables (boxesOfLines linesC4) [⟨-10, -10, 300, 300⟩] :=
  (extract_tables_spec (boxesOfLines linesC4) [⟨-10, -10, 300, 300⟩]).2.2.2.1 (by decide)

/-! ## Text quality scoring and merging (`_text_quality_score`,
main.py:781-797, and `_merge_text`, main.py:800-825).  Character classes
(`isalpha`, `isdigit`, `isspace`) are modelled by their ASCII behaviour. -/

/-- Python `str.split("\n")`: split on every newline, keeping empty parts. -/
def splitNL : List Char → List (List Char)
  | [] => [[]]
  | c :: cs =>
    if c = '\n' then [] :: splitNL cs
    else
      match splitNL cs with
      | [] => [[c]]
      | l :: ls => (c :: l) :: ls

/-- Keep a line iff it is non-blank, trimmed (`ln.strip()` both as the
filter and as the kept value). -/
def fLine (ln : List Char) : Option (List Char) :=
  if pyStripData ln = [] then none else some (pyStripData ln)

/-- `[ln.strip() for ln in s.split("\n") if ln.strip()]`: the trimmed
non-blank lines. -/
def pyLines (l : List Char) : List (List Char) :=
  (splitNL l).filterMap fLine

/-- `_text_quality_score` on the character list (main.py:781-797): strip;
0 for the empty result; otherwise
`letters + 0.6·digits + 0.1·spaces − 1.5·other + min(30, lines) + min(50, n/50)`. -/
def tqsData (text : List Char) : ℚ :=
  if pyStripData text = [] then 0
  else
    ((pyStripData text).filter Char.isAlpha).length * 1 +
    ((pyStripData text).filter Char.isDigit).length * (6 / 10) +
    ((pyStripData text).filter pyIsSpace).length * (1 / 10) -
    (((pyStripData text).length : ℚ) -
      (((pyStripData text).filter Char.isAlpha).length +
       ((pyStripData text).filter Char.isDigit).length +
       ((pyStripData text).filter pyIsSpace).length)) * (15 / 10) +
    min 30 ((pyLines (pyStripData text)).length : ℚ) +
    min 50 (((pyStripData text).length : ℚ) / 50)

def _text_quality_score (text : String) : ℚ := tqsData text.data

/-- `re.sub(r"\s+", " ", ln)`: collapse every whitespace run to one blank. -/
def collapseWS : List Char → List Char
  | [] => []
  | [c] => [if pyIsSpace c then ' ' else c]
  | c :: c' :: cs =>
    if pyIsSpace c && pyIsSpace c' then collapseWS (c' :: cs)
    else (if pyIsSpace c then ' ' else c) :: collapseWS (c' :: cs)

/-- The dedup key of main.py:820: collapse whitespace, strip, lowercase. -/
def normKey (ln : List Char) : List Char :=
  (pyStripData (collapseWS ln)).map Char.toLower

/-- The dedup loop of main.py:817-824: skip a line whose key is empty or
already seen; otherwise keep it and record its key. -/
def dedupGo : List (List Char) → List (List Char) → List (List Char)
  | _, [] => []
  | seen, ln :: rest =>
    if normKey ln = [] ∨ normKey ln ∈ seen then dedupGo seen rest
    else ln :: dedupGo (normKey ln :: seen) rest

/-- `"\n".join(lines)`. -/
def joinNL : List (List Char) → List Char
  | [] => []
  | [l] => l
  | l :: l' :: ls => l ++ '\n' :: joinNL (l' :: ls)

/-- `p_score += float(paddle_avg_conf) / 10.0` when a confidence is given. -/
def confAdd : Option ℚ → ℚ
  | some c => c / 10
  | none => 0

/-- `_merge_text` (main.py:800-825): compare quality scores of the stripped
texts (the paddle score boosted by `conf/10`); a score more than 5% above
the other wins verbatim (stripped); otherwise merge the unique non-blank
lines and strip the joined result. -/
def _merge_text (struct_text paddle_text : String) (paddle_avg_conf : Option ℚ) : String :=
  if tqsData (pyStripData paddle_text.data) + confAdd paddle_avg_conf >
      tqsData (pyStripData struct_text.data) * (21 / 20) then
    ⟨pyStripData paddle_text.data⟩
  else if tqsData (pyStripData struct_text.data) >
      (tqsData (pyStripData paddle_text.data) + confAdd paddle_avg_conf) * (21 / 20) then
    ⟨pyStripData struct_text.data⟩
  else
    ⟨pyStripData (joinNL (dedupGo []
      (pyLines (pyStripData struct_text.data) ++ pyLines (pyStripData paddle_text.data))))⟩

/-- The amended C5 claim, written from its own words: scores (of the trimmed
texts, the second boosted by `conf/10`) are compared with a 5% relative
margin; a winner's text is returned trimmed; otherwise the two candidates'
trimmed non-blank lines are concatenated (first candidate first, original
order), deduplicated by whitespace-normalized case-insensitive key keeping
the first occurrence, and joined with newlines. -/
def specMergeText (struct_text paddle_text : String) (paddle_avg_conf : Option ℚ) : String :=
  if _text_quality_score paddle_text + confAdd paddle_avg_conf >
      _text_quality_score struct_text * (21 / 20) then
    pyStrip paddle_text
  else if _text_quality_score struct_text >
      (_text_quality_score paddle_text + confAdd paddle_avg_conf) * (21 / 20) then
    pyStrip struct_text
  else
    ⟨joinNL (dedupGo [] (pyLines struct_text.data ++ pyLines paddle_text.data))⟩

lemma dropWhile_eq_self_of_head {p : Char → Bool} {l : List Char}
    (h : ∀ c, l.head? = some c → p c = false) : l.dropWhile p = l := by
  cases l with
  | nil => rfl
  | cons c cs =>
    rw [List.dropWhile_cons, if_neg]
    simp [h c rfl]

lemma pyStripData_head_not {l : List Char} {c : Char}
    (h : (pyStripData l).head? = some c) : pyIsSpace c = false := by
  unfold pyStripData at h
  rw [List.head?_reverse] at h
  have hne : (l.dropWhile pyIsSpace).reverse.dropWhile pyIsSpace ≠ [] := by
    intro hemp
    rw [hemp] at h
    simp at h
  obtain ⟨t, ht⟩ := List.dropWhile_suffix (p := pyIsSpace)
    (l := (l.dropWhile pyIsSpace).reverse)
  have hw : ((l.dropWhile pyIsSpace).reverse).getLast? = some c := by
    rw [← ht, List.getLast?_append_of_ne_nil _ hne]
    exact h
  rw [List.getLast?_reverse] at hw
  have hm := List.head?_dropWhile_not pyIsSpace l
  rw [hw] at hm
  simpa using hm

lemma pyStripData_getLast_not {l : List Char} {c : Char}
    (h : (pyStripData l).getLast? = some c) : pyIsSpace c = false := by
  unfold pyStripData at h
  rw [List.getLast?_reverse] at h
  have hm := List.head?_dropWhile_not pyIsSpace (l.dropWhile pyIsSpace).reverse
  rw [h] at hm
  simpa using hm

lemma pyStripData_of_clean {l : List Char}
    (h1 : ∀ c, l.head? = some c → pyIsSpace c = false)
    (h2 : ∀ c, l.getLast? = some c → pyIsSpace c = false) :
    pyStripData l = l := by
  unfold pyStripData
  rw [dropWhile_eq_self_of_head h1]
  rw [dropWhile_eq_self_of_head fun c hc => h2 c (by rwa [List.head?_reverse] at hc)]
  exact List.reverse_reverse l

lemma pyStripData_idem (l : List Char) : pyStripData (pyStripData l) = pyStripData l :=
  pyStripData_of_clean (fun _ hc => pyStripData_head_not hc)
    (fun _ hc => pyStripData_getLast_not hc)

lemma tqsData_strip (l : List Char) : tqsData (pyStripData l) = tqsData l := by
  unfold tqsData
  rw [pyStripData_idem]

lemma splitNL_ne_nil (l : List Char) : splitNL l ≠ [] := by
  cases l with
  | nil => simp [splitNL]
  | cons c cs =>
    simp only [splitNL]
    split
    · simp
    · split <;> simp

lemma pyStripData_cons_space {c : Char} (hc : pyIsSpace c = true) (l : List Char) :
    pyStripData (c :: l) = pyStripData l := by
  unfold pyStripData
  rw [List.dropWhile_cons, if_pos (by simp [hc])]

lemma pyLines_cons_space {c : Char} (hc : pyIsSpace c = true) (cs : List Char) :
    pyLines (c :: cs) = pyLines cs := by
  by_cases hnl : c = '\n'
  · subst hnl
    unfold pyLines
    rw [show splitNL ('\n' :: cs) = [] :: splitNL cs from by simp [splitNL]]
    rw [List.filterMap_cons]
    simp [fLine, pyStripData]
  · obtain ⟨l0, ls, hsp⟩ : ∃ l0 ls, splitNL cs = l0 :: ls := by
      rcases h : splitNL cs with _ | ⟨l0, ls⟩
      · exact absurd h (splitNL_ne_nil cs)
      · exact ⟨l0, ls, rfl⟩
    unfold pyLines
    rw [show splitNL (c :: cs) = (c :: l0) :: ls from by simp [splitNL, hnl, hsp]]
    rw [hsp, List.filterMap_cons, List.filterMap_cons]
    rw [show fLine (c :: l0) = fLine l0 from by
      unfold fLine
      rw [pyStripData_cons_space hc]]

lemma pyLines_dropWhile (l : List Char) :
    pyLines (l.dropWhile pyIsSpace) = pyLines l := by
  induction l with
  | nil => rfl
  | cons c cs ih =>
    by_cases hc : pyIsSpace c = true
    · rw [List.dropWhile_cons, if_pos (by simp [hc]), ih, pyLines_cons_space hc]
    · rw [List.dropWhile_cons, if_neg (by simp_all)]

/-- Appending a character to the last split component. -/
def appendLast (xs : List (List Char)) (a : Char) : List (List Char) :=
  match xs with
  | [] => [[a]]
  | [m] => [m ++ [a]]
  | m :: ms => m :: appendLast ms a

lemma splitNL_append_newline : ∀ l : List Char,
    splitNL (l ++ ['\n']) = splitNL l ++ [[]] := by
  intro l
  induction l with
  | nil => rfl
  | cons c cs ih =>
    by_cases hc : c = '\n'
    · subst hc
      show splitNL ('\n' :: (cs ++ ['\n'])) = _
      rw [show splitNL ('\n' :: (cs ++ ['\n'])) = [] :: splitNL (cs ++ ['\n']) from by
        simp [splitNL]]
      rw [ih]
      simp [splitNL]
    · obtain ⟨l0, ls, hsp⟩ : ∃ l0 ls, splitNL cs = l0 :: ls := by
        rcases h : splitNL cs with _ | ⟨l0, ls⟩
        · exact absurd h (splitNL_ne_nil cs)
        · exact ⟨l0, ls, rfl⟩
      show splitNL (c :: (cs ++ ['\n'])) = _
      rw [show splitNL (c :: (cs ++ ['\n'])) =
            match splitNL (cs ++ ['\n']) with
            | [] => [[c]]
            | l :: ls => (c :: l) :: ls from by simp [splitNL, hc]]
      rw [ih, hsp]
      rw [show splitNL (c :: cs) = (c :: l0) :: ls from by simp [splitNL, hc, hsp]]
      rfl

lemma splitNL_append_single {a : Char} (ha : a ≠ '\n') : ∀ l : List Char,
    splitNL (l ++ [a]) = appendLast (splitNL l) a := by
  intro l
  induction l with
  | nil => simp [splitNL, ha, appendLast]
  | cons c cs ih =>
    obtain ⟨l0, ls, hsp⟩ : ∃ l0 ls, splitNL cs = l0 :: ls := by
      rcases h : splitNL cs with _ | ⟨l0, ls⟩
      · exact absurd h (splitNL_ne_nil cs)
      · exact ⟨l0, ls, rfl⟩
    by_cases hc : c = '\n'
    · subst hc
      show splitNL ('\n' :: (cs ++ [a])) = _
      rw [show splitNL ('\n' :: (cs ++ [a])) = [] :: splitNL (cs ++ [a]) from by
        simp [splitNL]]
      rw [ih]
      rw [show splitNL ('\n' :: cs) = [] :: splitNL cs from by simp [splitNL]]
      rw [hsp]
      rfl
    · show splitNL (c :: (cs ++ [a])) = _
      rw [show splitNL (c :: (cs ++ [a])) =
            match splitNL (cs ++ [a]) with
            | [] => [[c]]
            | l :: ls => (c :: l) :: ls from by simp [splitNL, hc]]
      rw [ih, hsp]
      rw [show splitNL (c :: cs) = (c :: l0) :: ls from by simp [splitNL, hc, hsp]]
      cases ls with
      | nil => rfl
      | cons l1 ls1 => rfl

lemma pyStripData_append_space {a : Char} (ha : pyIsSpace a = true) (m : List Char) :
    pyStripData (m ++ [a]) = pyStripData m := by
  unfold pyStripData
  rw [List.dropWhile_append]
  split
  · rename_i hemp
    rw [show List.dropWhile pyIsSpace [a] = [] from by simp [List.dropWhile, ha]]
    rw [show List.dropWhile pyIsSpace m = [] from by simpa using hemp]
  · rw [List.reverse_append]
    rw [show List.reverse [a] = [a] from rfl]
    show ((a :: (m.dropWhile pyIsSpace).reverse).dropWhile pyIsSpace).reverse = _
    rw [List.dropWhile_cons, if_pos (by simp [ha])]

lemma filterMap_appendLast {a : Char} (ha : pyIsSpace a = true) :
    ∀ xs : List (List Char), xs ≠ [] →
      (appendLast xs a).filterMap fLine = xs.filterMap fLine := by
  intro xs
  induction xs with
  | nil => intro h; exact absurd rfl h
  | cons m ms ih =>
    intro _
    cases ms with
    | nil =>
      show List.filterMap fLine [m ++ [a]] = _
      rw [List.filterMap_cons, List.filterMap_cons]
      rw [show fLine (m ++ [a]) = fLine m from by
        unfold fLine
        rw [pyStripData_append_space ha]]
    | cons m1 ms1 =>
      show List.filterMap fLine (m :: appendLast (m1 :: ms1) a) = _
      rw [List.filterMap_cons, List.filterMap_cons, ih (by simp)]

lemma pyLines_append_space {a : Char} (ha : pyIsSpace a = true) (l : List Char) :
    pyLines (l ++ [a]) = pyLines l := by
  by_cases hnl : a = '\n'
  · subst hnl
    unfold pyLines
    rw [splitNL_append_newline l, List.filterMap_append]
    simp [fLine, pyStripData]
  · unfold pyLines
    rw [splitNL_append_single hnl l]
    exact filterMap_appendLast ha (splitNL l) (splitNL_ne_nil l)

lemma pyLines_backdrop (l : List Char) :
    pyLines ((l.reverse.dropWhile pyIsSpace).reverse) = pyLines l := by
  induction l using List.reverseRecOn with
  | nil => rfl
  | append_singleton l a ih =>
    by_cases ha : pyIsSpace a = true
    · rw [List.reverse_append]
      rw [show List.reverse [a] ++ l.reverse = a :: l.reverse from by simp]
      rw [List.dropWhile_cons, if_pos (by simp [ha])]
      rw [ih, pyLines_append_space ha]
    · rw [List.reverse_append]
      rw [show List.reverse [a] ++ l.reverse = a :: l.reverse from by simp]
      rw [List.dropWhile_cons, if_neg (by simp_all)]
      simp

lemma pyLines_strip (l : List Char) : pyLines (pyStripData l) = pyLines l := by
  unfold pyStripData
  rw [pyLines_backdrop (l.dropWhile pyIsSpace), pyLines_dropWhile]

lemma joinNL_ne_nil {l : List Char} (hl : l ≠ []) (ls : List (List Char)) :
    joinNL (l :: ls) ≠ [] := by
  cases ls <;> simp [joinNL, hl]

lemma joinNL_head? {l : List Char} (hl : l ≠ []) (ls : List (List Char)) :
    (joinNL (l :: ls)).head? = l.head? := by
  cases ls with
  | nil => rfl
  | cons l' ls' =>
    show (l ++ '\n' :: joinNL (l' :: ls')).head? = l.head?
    exact List.head?_append_of_ne_nil _ hl

lemma joinNL_getLast? :
    ∀ (ls : List (List Char)) (l : List Char), (∀ x ∈ l :: ls, x ≠ []) →
      ∃ y ∈ l :: ls, (joinNL (l :: ls)).getLast? = y.getLast? := by
  intro ls
  induction ls with
  | nil =>
    intro l _
    exact ⟨l, List.mem_cons_self _ _, rfl⟩
  | cons l' ls' ih =>
    intro l h
    obtain ⟨y, hy, hlast⟩ := ih l' fun x hx => h x (List.mem_cons_of_mem _ hx)
    refine ⟨y, List.mem_cons_of_mem _ hy, ?_⟩
    show (l ++ '\n' :: joinNL (l' :: ls')).getLast? = _
    rw [List.getLast?_append_of_ne_nil _ (by simp)]
    have hne : joinNL (l' :: ls') ≠ [] := joinNL_ne_nil (h l' (by simp)) ls'
    rcases hJ : joinNL (l' :: ls') with _ | ⟨j, js⟩
    · exact absurd hJ hne
    · rw [List.getLast?_cons_cons, ← hJ, hlast]

lemma pyStrip_joinNL {L : List (List Char)}
    (h : ∀ x ∈ L, x ≠ [] ∧ (∀ c, x.head? = some c → pyIsSpace c = false) ∧
         (∀ c, x.getLast? = some c → pyIsSpace c = false)) :
    pyStripData (joinNL L) = joinNL L := by
  cases L with
  | nil => rfl
  | cons l ls =>
    apply pyStripData_of_clean
    · intro c hc
      rw [joinNL_head? (h l (List.mem_cons_self _ _)).1 ls] at hc
      exact (h l (List.mem_cons_self _ _)).2.1 c hc
    · intro c hc
      obtain ⟨y, hy, hlast⟩ := joinNL_getLast? ls l fun x hx => (h x hx).1
      rw [hlast] at hc
      exact (h y hy).2.2 c hc

lemma dedupGo_subset :
    ∀ (seen L : List (List Char)) (x : List Char), x ∈ dedupGo seen L → x ∈ L := by
  intro seen L
  induction L generalizing seen with
  | nil => intro x hx; simp [dedupGo] at hx
  | cons ln rest ih =>
    intro x hx
    simp only [dedupGo] at hx
    split at hx
    · exact List.mem_cons_of_mem _ (ih _ x hx)
    · rcases List.mem_cons.mp hx with rfl | hx'
      · exact List.mem_cons_self _ _
      · exact List.mem_cons_of_mem _ (ih _ x hx')

lemma pyLines_mem_clean {l x : List Char} (hx : x ∈ pyLines l) :
    x ≠ [] ∧ (∀ c, x.head? = some c → pyIsSpace c = false) ∧
    (∀ c, x.getLast? = some c → pyIsSpace c = false) := by
  unfold pyLines at hx
  rw [List.mem_filterMap] at hx
  obtain ⟨ln, _, hf⟩ := hx
  unfold fLine at hf
  split at hf
  · simp at hf
  · rename_i hne
    obtain rfl := Option.some.inj hf
    exact ⟨hne, fun _ hc => pyStripData_head_not hc,
      fun _ hc => pyStripData_getLast_not hc⟩

/-- C5 (amended): `_merge_text` agrees everywhere with the specification-side
`specMergeText`: a candidate whose score (of the trimmed text, the second
boosted by `conf/10`) exceeds the other's by more than 5% wins and its text
is returned trimmed; otherwise the two candidates' trimmed non-blank lines
are concatenated in order, deduplicated by whitespace-normalized
case-insensitive key keeping the first occurrence, and joined with
newlines. -/
theorem merge_text_eq_spec (st pt : String) (conf : Option ℚ) :
    _merge_text st pt conf = specMergeText st pt conf := by
  unfold _merge_text specMergeText _text_quality_score
  rw [tqsData_strip st.data, tqsData_strip pt.data,
    pyLines_strip st.data, pyLines_strip pt.data]
  split_ifs
  · rfl
  · rfl
  · show String.mk (pyStripData (joinNL (dedupGo [] (pyLines st.data ++ pyLines pt.data)))) = _
    congr 1
    apply pyStrip_joinNL
    intro x hx
    have hx' := dedupGo_subset [] _ x hx
    rcases List.mem_append.mp hx' with hmem | hmem
    · exact pyLines_mem_clean hmem
    · exact pyLines_mem_clean hmem

/-- C5 counterexample, two parts.  With candidates `""` and `"abc\n"` the
second score wins by more than 5% but the result is the stripped `"abc"`,
not the claimed verbatim `"abc\n"`.  With candidates `"  a"` and `"  a"`
(equal scores, merge branch) the result is `"a"`, while concatenating the
candidates' raw non-empty lines and joining them, as the claim is worded,
would give `"  a"`. -/
theorem merge_text_counterexample :
    (_text_quality_score "abc\n" > _text_quality_score "" * (21 / 20) ∧
     _merge_text "" "abc\n" none = "abc" ∧ ("abc" : String) ≠ "abc\n") ∧
    (¬ _text_quality_score "  a" > _text_quality_score "  a" * (21 / 20)) ∧
    _merge_text "  a" "  a" none = "a" ∧ ("a" : String) ≠ "  a" := by
  refine ⟨⟨by decide, by decide, by decide⟩, by decide, by decide, by decide⟩

/-! ## Perspective normalization (`_four_point_transform`, main.py:182-203,
and `_try_perspective_normalize`, main.py:206-231).  Pixel work (grayscale,
blur, Canny, dilation, contour extraction, area and polygon approximation,
warping) is external OpenCV computation, handed in as data and abstract
functions; the repository's own control flow and arithmetic are modelled. -/

/-- Squared Euclidean distance of two points. -/
def distSq (a b : PtQ) : ℚ :=
  (a.x - b.x) * (a.x - b.x) + (a.y - b.y) * (a.y - b.y)

/-- `int(√q)` for `q ≥ 0`: the floor of the square root, computed as
`Nat.sqrt ⌊q⌋` (for real `x ≥ 0`, `⌊√x⌋ = ⌊√⌊x⌋⌋`). -/
def ratSqrtFloor (q : ℚ) : ℕ := Nat.sqrt q.floor.toNat

/-- `max_width = int(max(‖br−bl‖, ‖tr−tl‖))` (main.py:186-188); `max`
commutes with the square root, so this is the floored root of the larger
squared edge length. -/
def fptMaxWidth (r : OrderedRect) : ℕ :=
  ratSqrtFloor (max (distSq r.br r.bl) (distSq r.tr r.tl))

/-- `max_height = int(max(‖tr−br‖, ‖tl−bl‖))` (main.py:190-192). -/
def fptMaxHeight (r : OrderedRect) : ℕ :=
  ratSqrtFloor (max (distSq r.tr r.br) (distSq r.tl r.bl))

/-- `_four_point_transform` (main.py:182-203): order the corners, compute
the target size, return the image unchanged when either dimension is below
10, otherwise resample via the external `warp`. -/
def _four_point_transform {α : Type} (warp : α → OrderedRect → ℕ → ℕ → α)
    (image : α) (pts : Fin 4 → PtQ) : α :=
  if fptMaxWidth (_order_points pts) < 10 ∨ fptMaxHeight (_order_points pts) < 10 then
    image
  else
    warp image (_order_points pts) (fptMaxWidth (_order_points pts))
      (fptMaxHeight (_order_points pts))

/-- A candidate contour: its area (`cv2.contourArea`) and the vertices of
its Douglas-Peucker approximation (`cv2.approxPolyDP`), both external. -/
structure Contour where
  area : ℚ
  approx : List PtQ
deriving DecidableEq, Repr

/-- `sorted(contours, key=cv2.contourArea, reverse=True)` (main.py:217). -/
def sortContours (cs : List Contour) : List Contour :=
  cs.insertionSort fun a b => b.area ≤ a.area

/-- A quadruple of points as a function on `Fin 4`. -/
def quadOf (a b c d : PtQ) : Fin 4 → PtQ
  | ⟨0, _⟩ => a
  | ⟨1, _⟩ => b
  | ⟨2, _⟩ => c
  | ⟨3, _⟩ => d

/-- The candidate loop (main.py:221-229): keep scanning past contours whose
area is below 20% of the image area or whose approximation does not have
exactly 4 vertices; return the first 4-vertex approximation found. -/
def findQuad (imgArea : ℚ) : List Contour → Option (Fin 4 → PtQ)
  | [] => none
  | c :: rest =>
    if c.area < (2 / 10) * imgArea then findQuad imgArea rest
    else
      match c.approx with
      | [a, b, d, e] => some (quadOf a b d e)
      | _ => findQuad imgArea rest

/-- `_try_perspective_normalize` (main.py:206-231), modelled over the
extracted contour list; `_ensure_bgr` is abstracted as `ensureBgr` (it is
the identity on the 3-channel buffers this normalizer receives). -/
def _try_perspective_normalize {α : Type} (ensureBgr : α → α)
    (warp : α → OrderedRect → ℕ → ℕ → α) (image : α) (imgArea : ℚ)
    (contours : List Contour) : α :=
  if contours = [] then ensureBgr image
  else
    match findQuad imgArea ((sortContours contours).take 10) with
    | none => ensureBgr image
    | some pts => _four_point_transform warp (ensureBgr image) pts

/-- C9: when no qualifying 4-vertex contour is found among the top 10 by
area, or when the selected quadrilateral's target width or height is below
10 pixels, the perspective normalizer returns its input unchanged (given
that the channel-ensuring step is the identity on it, as it is for the BGR
buffers it receives); no error path exists. -/
theorem try_perspective_fallback {α : Type} (ensureBgr : α → α)
    (warp : α → OrderedRect → ℕ → ℕ → α) (image : α) (imgArea : ℚ)
    (contours : List Contour)
    (hbgr : ensureBgr image = image)
    (h : findQuad imgArea ((sortContours contours).take 10) = none ∨
         ∃ pts, findQuad imgArea ((sortContours contours).take 10) = some pts ∧
           (fptMaxWidth (_order_points pts) < 10 ∨
            fptMaxHeight (_order_points pts) < 10)) :
    _try_perspective_normalize ensureBgr warp image imgArea contours = image := by
  unfold _try_perspective_normalize
  by_cases hc : contours = []
  · rw [if_pos hc, hbgr]
  · rw [if_neg hc]
    rcases h with hnone | ⟨pts, hsome, hsmall⟩
    · rw [hnone, hbgr]
    · rw [hsome]
      show _four_point_transform warp (ensureBgr image) pts = image
      unfold _four_point_transform
      rw [if_pos hsmall, hbgr]

/-- C9 witness: a single qualifying 4-vertex contour (area 100 ≥ 20% of
image area 10) whose rectified size is 1×1 < 10, so the image (here `0`)
comes back unchanged instead of being warped (which would yield `1`). -/
theorem try_perspective_fallback_witness :
    _try_perspective_normalize (α := ℕ) id (fun _ _ _ _ => 1) 0 10
      [⟨100, [⟨0, 0⟩, ⟨1, 0⟩, ⟨1, 1⟩, ⟨0, 1⟩]⟩] = 0 :=
  try_perspective_fallback id (fun _ _ _ _ => 1) 0 10
    [⟨100, [⟨0, 0⟩, ⟨1, 0⟩, ⟨1, 1⟩, ⟨0, 1⟩]⟩] rfl
    (Or.inr ⟨quadOf ⟨0, 0⟩ ⟨1, 0⟩ ⟨1, 1⟩ ⟨0, 1⟩, by decide, by decide⟩)

/-! ## Monochrome preprocessing (`preprocess_opencv_mode`, main.py:526-557)
and its use in the tesseract branch of the request handler
(main.py:917-929).  The OpenCV steps are abstract operations. -/

inductive PrepMode
  | basic
  | photo
deriving DecidableEq, Repr

/-- The external OpenCV operations the basic pipeline applies. -/
structure CvBasicOps (α : Type) where
  heightWidth : α → ℕ × ℕ
  ensureBgr : α → α
  resize2x : α → α
  toGray : α → α
  bilateral : α → α
  adaptiveThreshold : α → α
  meanBelow127 : α → Bool
  invert : α → α

/-- `preprocess_opencv_mode` (main.py:526-557): only the `basic` branch
builds and returns an image-plus-trace pair; for `photo` the Python function
falls off its end, i.e. returns `None`. -/
def preprocess_opencv_mode {α : Type} (ops : CvBasicOps α) (image_bgr : α)
    (mode : PrepMode) : Option (α × List (String × String)) :=
  match mode with
  | PrepMode.basic =>
    let bgr0 := ops.ensureBgr image_bgr
    let hw := ops.heightWidth bgr0
    let upscaled := max hw.1 hw.2 < 900
    let bgr := if upscaled then ops.resize2x bgr0 else bgr0
    let meta1 := [("mode", "basic")] ++
      (if upscaled then
        [("step_upscale", "resize(fx=2.0, fy=2.0, interpolation=INTER_CUBIC)")]
      else [])
    let thr := ops.adaptiveThreshold (ops.bilateral (ops.toGray bgr))
    let meta2 := meta1 ++
      [("step_gray", "True"),
       ("step_denoise", "bilateralFilter(d=7, sigmaColor=50, sigmaSpace=50)"),
       ("step_threshold", "adaptiveThreshold(blockSize=31, C=9)")]
    if ops.meanBelow127 thr then some (ops.invert thr, meta2 ++ [("step_invert", "True")])
    else some (thr, meta2)
  | PrepMode.photo => none

/-- C10: for every input image, the monochrome preprocessing yields a value
(image plus trace) for mode `basic` and `none` for mode `photo` — so the
tesseract preprocessing branch of the request handler, which unpacks
`processed_gray, meta = preprocess_opencv_mode(img, mode)` outside any
`try`, has no defined photo pipeline and fails on the unpacking. -/
theorem preprocess_opencv_mode_photo_none {α : Type} (ops : CvBasicOps α) (image : α) :
    preprocess_opencv_mode ops image PrepMode.photo = none ∧
    (preprocess_opencv_mode ops image PrepMode.basic).isSome = true := by
  constructor
  · rfl
  · unfold preprocess_opencv_mode
    dsimp only
    split <;> split <;> rfl

end ErpDoosan
